import Mathlib

/-!
Verification of the voxta-gateway core against its specification.

The development shallowly embeds the repository's code:

* `WS` — the downstream WebSocket fan-out registry, translated from
  `voxta_gateway/websocket_manager.py` (`WebSocketManager`, `ConnectedClient`).
  A websocket object is modelled by an identity (`wsId`) together with the
  behaviour of its `send_json` method (`sendOk`: whether sending succeeds or
  raises); `time.time()` timestamps carry no logical content and are omitted.
-/

namespace WS

/-- A `ConnectedClient` from `websocket_manager.py`: `client_id`, the websocket
(`wsId` is the object identity, `sendOk` the behaviour of its `send_json`),
the subscription set, and the per-client `message_history` of
(event_type, data) messages delivered so far. -/
structure Client where
  client_id : String
  wsId : Nat
  sendOk : Bool
  subscribed : List String
  history : List (String × String)
deriving DecidableEq

/-- The special subscription name that receives all events
(`WebSocketManager.ALL_EVENTS`). -/
def ALL_EVENTS : String := "all"

/-- The subscription check performed inside `WebSocketManager.broadcast`:
`self.ALL_EVENTS in client.subscribed_events or event_type in client.subscribed_events`. -/
def Subscribed (c : Client) (e : String) : Prop :=
  ALL_EVENTS ∈ c.subscribed ∨ e ∈ c.subscribed

instance (c : Client) (e : String) : Decidable (Subscribed c e) :=
  inferInstanceAs (Decidable (ALL_EVENTS ∈ c.subscribed ∨ e ∈ c.subscribed))

/-- Result of the send loop inside `broadcast`: the clients (histories updated
on successful sends), the ids on which `send_json` was invoked (in iteration
order), and the `disconnected` list collected from failed sends. -/
structure PassResult where
  clients : List Client
  sent : List String
  disconnected : List String

/-- The `for client_id, client in self.clients.items()` loop of
`WebSocketManager.broadcast`: for each subscribed client, try
`send_json`; on success append the message to its history; on an exception
record the client in `disconnected`. -/
def broadcastPass (e d : String) : List Client → PassResult
  | [] => ⟨[], [], []⟩
  | c :: rest =>
    let r := broadcastPass e d rest
    if Subscribed c e then
      if c.sendOk then
        ⟨⟨c.client_id, c.wsId, c.sendOk, c.subscribed, c.history ++ [(e, d)]⟩ :: r.clients,
          c.client_id :: r.sent, r.disconnected⟩
      else
        ⟨c :: r.clients, c.client_id :: r.sent, c.client_id :: r.disconnected⟩
    else
      ⟨c :: r.clients, r.sent, r.disconnected⟩

/-- The cleanup loop at the end of `broadcast`:
`for client_id in disconnected: self.remove(client_id)` — `remove` deletes the
registry entry with that key. -/
def removeIds (ids : List String) : List Client → List Client
  | [] => []
  | c :: rest =>
    if c.client_id ∈ ids then removeIds ids rest else c :: removeIds ids rest

/-- The `WebSocketManager`: its `clients` dict, as an insertion-ordered list
of clients (dict keys are the `client_id` fields). -/
structure Manager where
  clients : List Client
deriving DecidableEq

/-- `WebSocketManager.broadcast(event_type, data)`: run the send loop, then
remove the clients whose sends failed.  The function is total: every
`send_json` exception is caught inside the loop. -/
def broadcast (m : Manager) (e d : String) : Manager :=
  let r := broadcastPass e d m.clients
  ⟨removeIds r.disconnected r.clients⟩

/-- Dict lookup `self.clients[client_id]` / `client_id in self.clients`. -/
def findClient (cid : String) : List Client → Option Client
  | [] => none
  | c :: rest => if c.client_id = cid then some c else findClient cid rest

/-- Dict deletion `del self.clients[client_id]`. -/
def removeClient (cid : String) : List Client → List Client
  | [] => []
  | c :: rest =>
    if c.client_id = cid then removeClient cid rest else c :: removeClient cid rest

/-- The subscription set built in `WebSocketManager.connect`:
`set(events) if events else {self.ALL_EVENTS}` — both `None` and the empty
list are falsy in Python. -/
def newSubs (events : Option (List String)) : List String :=
  match events with
  | none => [ALL_EVENTS]
  | some [] => [ALL_EVENTS]
  | some es => es

/-- `WebSocketManager.connect(websocket, client_id, events)`: a duplicate
`client_id` first goes through `disconnect` (close the old websocket, delete
the entry), then the fresh client is stored under `client_id` (dict
reinsertion appends at the end).  The second component lists the websocket
identities that were closed. -/
def connect (m : Manager) (cid : String) (ws : Nat) (ok : Bool)
    (events : Option (List String)) : Manager × List Nat :=
  match findClient cid m.clients with
  | some old =>
      (⟨removeClient cid m.clients ++ [⟨cid, ws, ok, newSubs events, []⟩]⟩, [old.wsId])
  | none =>
      (⟨m.clients ++ [⟨cid, ws, ok, newSubs events, []⟩]⟩, [])

lemma mem_sent_iff (e d : String) :
    ∀ (cs : List Client) (cid : String),
      cid ∈ (broadcastPass e d cs).sent ↔
        ∃ c, c ∈ cs ∧ c.client_id = cid ∧ Subscribed c e := by
  intro cs
  induction cs with
  | nil => intro cid; simp [broadcastPass]
  | cons c rest ih =>
    intro cid
    by_cases hs : Subscribed c e
    · by_cases hk : c.sendOk
      · simp only [broadcastPass, if_pos hs, if_pos hk, List.mem_cons, ih]
        constructor
        · rintro (rfl | ⟨c', hc', rfl, hsub'⟩)
          · exact ⟨c, Or.inl rfl, rfl, hs⟩
          · exact ⟨c', Or.inr hc', rfl, hsub'⟩
        · rintro ⟨c', (rfl | hc'), rfl, hsub'⟩
          · exact Or.inl rfl
          · exact Or.inr ⟨c', hc', rfl, hsub'⟩
      · simp only [broadcastPass, if_pos hs, if_neg hk, List.mem_cons, ih]
        constructor
        · rintro (rfl | ⟨c', hc', rfl, hsub'⟩)
          · exact ⟨c, Or.inl rfl, rfl, hs⟩
          · exact ⟨c', Or.inr hc', rfl, hsub'⟩
        · rintro ⟨c', (rfl | hc'), rfl, hsub'⟩
          · exact Or.inl rfl
          · exact Or.inr ⟨c', hc', rfl, hsub'⟩
    · simp only [broadcastPass, if_neg hs, ih]
      constructor
      · rintro ⟨c', hc', rfl, hsub'⟩
        exact ⟨c', List.mem_cons_of_mem _ hc', rfl, hsub'⟩
      · rintro ⟨c', hc', rfl, hsub'⟩
        rcases List.mem_cons.mp hc' with rfl | hc''
        · exact absurd hsub' hs
        · exact ⟨c', hc'', rfl, hsub'⟩

lemma id_unique {cs : List Client} (hnd : (cs.map Client.client_id).Nodup)
    {c c' : Client} (hc : c ∈ cs) (hc' : c' ∈ cs)
    (heq : c.client_id = c'.client_id) : c = c' := by
  induction cs with
  | nil => cases hc
  | cons a rest ih =>
    rw [List.map_cons, List.nodup_cons] at hnd
    rcases List.mem_cons.mp hc with rfl | hm <;>
      rcases List.mem_cons.mp hc' with rfl | hm'
    · rfl
    · exact absurd (heq ▸ List.mem_map_of_mem Client.client_id hm') hnd.1
    · exact absurd (heq ▸ List.mem_map_of_mem Client.client_id hm) hnd.1
    · exact ih hnd.2 hm hm'

/-- Claim C2: in `WebSocketManager.broadcast(event_type, data)` the message is
sent to a connected client exactly when the client's `subscribed_events`
contains the event type or the special name "all"; a client subscribed to
neither is not sent anything by that broadcast. -/
theorem ws_broadcast_selective (m : Manager) (e d : String) (c : Client)
    (hmem : c ∈ m.clients)
    (hnd : (m.clients.map Client.client_id).Nodup) :
    c.client_id ∈ (broadcastPass e d m.clients).sent ↔
      (ALL_EVENTS ∈ c.subscribed ∨ e ∈ c.subscribed) := by
  rw [mem_sent_iff]
  constructor
  · rintro ⟨c', hc', hid, hsub⟩
    have : c' = c := id_unique hnd hc' hmem hid
    subst this
    exact hsub
  · intro hsub
    exact ⟨c, hmem, rfl, hsub⟩

/-- Witness for C2 at a concrete registry: a client subscribed to "event-a"
is sent an "event-a" broadcast. -/
theorem ws_broadcast_selective_witness :
    "c1" ∈ (broadcastPass "event-a" "payload"
      [⟨"c1", 0, true, ["event-a"], []⟩]).sent ↔
      (ALL_EVENTS ∈ ["event-a"] ∨ "event-a" ∈ ["event-a"]) :=
  ws_broadcast_selective ⟨[⟨"c1", 0, true, ["event-a"], []⟩]⟩ "event-a" "payload"
    ⟨"c1", 0, true, ["event-a"], []⟩ (by decide) (by decide)

lemma pass_clients_ids (e d : String) :
    ∀ cs : List Client,
      ((broadcastPass e d cs).clients).map Client.client_id =
        cs.map Client.client_id := by
  intro cs
  induction cs with
  | nil => simp [broadcastPass]
  | cons c rest ih =>
    by_cases hs : Subscribed c e
    · by_cases hk : c.sendOk
      · simp [broadcastPass, if_pos hs, if_pos hk, ih]
      · simp [broadcastPass, if_pos hs, if_neg hk, ih]
    · simp [broadcastPass, if_neg hs, ih]

lemma mem_disc_iff (e d : String) :
    ∀ (cs : List Client) (cid : String),
      cid ∈ (broadcastPass e d cs).disconnected ↔
        ∃ c, c ∈ cs ∧ c.client_id = cid ∧ Subscribed c e ∧ c.sendOk = false := by
  intro cs
  induction cs with
  | nil => intro cid; simp [broadcastPass]
  | cons c rest ih =>
    intro cid
    by_cases hs : Subscribed c e
    · by_cases hk : c.sendOk
      · simp only [broadcastPass, if_pos hs, if_pos hk, ih]
        constructor
        · rintro ⟨c', hc', rfl, hsub', hko'⟩
          exact ⟨c', List.mem_cons_of_mem _ hc', rfl, hsub', hko'⟩
        · rintro ⟨c', hc', rfl, hsub', hko'⟩
          rcases List.mem_cons.mp hc' with rfl | hm
          · exact absurd hk (by simp [hko'])
          · exact ⟨c', hm, rfl, hsub', hko'⟩
      · simp only [broadcastPass, if_pos hs, if_neg hk, List.mem_cons, ih]
        constructor
        · rintro (rfl | ⟨c', hc', rfl, hsub', hko'⟩)
          · exact ⟨c, Or.inl rfl, rfl, hs, Bool.eq_false_iff.mpr hk⟩
          · exact ⟨c', Or.inr hc', rfl, hsub', hko'⟩
        · rintro ⟨c', (rfl | hm), rfl, hsub', hko'⟩
          · exact Or.inl rfl
          · exact Or.inr ⟨c', hm, rfl, hsub', hko'⟩
    · simp only [broadcastPass, if_neg hs, ih]
      constructor
      · rintro ⟨c', hc', rfl, hsub', hko'⟩
        exact ⟨c', List.mem_cons_of_mem _ hc', rfl, hsub', hko'⟩
      · rintro ⟨c', hc', rfl, hsub', hko'⟩
        rcases List.mem_cons.mp hc' with rfl | hm
        · exact absurd hsub' hs
        · exact ⟨c', hm, rfl, hsub', hko'⟩

lemma mem_removeIds (ids : List String) :
    ∀ (cs : List Client) (c : Client),
      c ∈ removeIds ids cs ↔ c ∈ cs ∧ c.client_id ∉ ids := by
  intro cs
  induction cs with
  | nil => intro c; simp [removeIds]
  | cons a rest ih =>
    intro c
    by_cases ha : a.client_id ∈ ids
    · rw [removeIds, if_pos ha, ih]
      constructor
      · rintro ⟨hm, hout⟩
        exact ⟨List.mem_cons_of_mem _ hm, hout⟩
      · rintro ⟨hm, hout⟩
        rcases List.mem_cons.mp hm with rfl | hm'
        · exact absurd ha hout
        · exact ⟨hm', hout⟩
    · rw [removeIds, if_neg ha]
      constructor
      · intro hm
        rcases List.mem_cons.mp hm with rfl | hm'
        · exact ⟨List.mem_cons_self _ _, ha⟩
        · exact ⟨List.mem_cons_of_mem _ ((ih c).mp hm').1, ((ih c).mp hm').2⟩
      · rintro ⟨hm, hout⟩
        rcases List.mem_cons.mp hm with rfl | hm'
        · exact List.mem_cons_self _ _
        · exact List.mem_cons_of_mem _ ((ih c).mpr ⟨hm', hout⟩)

lemma removeIds_not_mem (ids : List String) (cs : List Client) (cid : String)
    (hin : cid ∈ ids) : cid ∉ (removeIds ids cs).map Client.client_id := by
  intro h
  rcases List.mem_map.mp h with ⟨c, hc, rfl⟩
  exact ((mem_removeIds ids cs c).mp hc).2 hin

lemma removeIds_keeps (ids : List String) (cs : List Client) (cid : String)
    (hout : cid ∉ ids) (hin : cid ∈ cs.map Client.client_id) :
    cid ∈ (removeIds ids cs).map Client.client_id := by
  rcases List.mem_map.mp hin with ⟨c, hc, rfl⟩
  exact List.mem_map_of_mem Client.client_id
    ((mem_removeIds ids cs c).mpr ⟨hc, hout⟩)

/-- Claim C9: `WebSocketManager.broadcast` is total (send exceptions never
propagate to the caller — its Lean embedding returns a `Manager`, not an
error), every subscribed client whose `send_json` raises is removed from the
registry before `broadcast` returns, and every client whose send succeeds
(or who was not targeted) remains registered. -/
theorem ws_broadcast_failure_cleanup (m : Manager) (e d : String)
    (hnd : (m.clients.map Client.client_id).Nodup) :
    (∀ c ∈ m.clients, Subscribed c e → c.sendOk = false →
      c.client_id ∉ (broadcast m e d).clients.map Client.client_id) ∧
    (∀ c ∈ m.clients, (c.sendOk = true ∨ ¬ Subscribed c e) →
      c.client_id ∈ (broadcast m e d).clients.map Client.client_id) := by
  constructor
  · intro c hc hsub hko
    have hdisc : c.client_id ∈ (broadcastPass e d m.clients).disconnected :=
      (mem_disc_iff e d m.clients c.client_id).mpr ⟨c, hc, rfl, hsub, hko⟩
    exact removeIds_not_mem _ _ _ hdisc
  · intro c hc hok
    have hnin : c.client_id ∉ (broadcastPass e d m.clients).disconnected := by
      intro hdisc
      rcases (mem_disc_iff e d m.clients c.client_id).mp hdisc with
        ⟨c', hc', hid, hsub', hko'⟩
      have : c' = c := id_unique hnd hc' hc hid
      subst this
      rcases hok with hok | hok
      · rw [hok] at hko'
        cases hko'
      · exact hok hsub'
    have hin : c.client_id ∈ ((broadcastPass e d m.clients).clients).map Client.client_id := by
      rw [pass_clients_ids]
      exact List.mem_map_of_mem Client.client_id hc
    exact removeIds_keeps _ _ _ hnin hin

/-- Witness for C9: one client subscribed to "all" whose send raises is
removed; a healthy client stays. -/
theorem ws_broadcast_failure_cleanup_witness :
    ("bad" : String) ∉ (broadcast ⟨[⟨"bad", 0, false, ["all"], []⟩,
        ⟨"good", 1, true, ["all"], []⟩]⟩ "ev" "x").clients.map Client.client_id ∧
    ("good" : String) ∈ (broadcast ⟨[⟨"bad", 0, false, ["all"], []⟩,
        ⟨"good", 1, true, ["all"], []⟩]⟩ "ev" "x").clients.map Client.client_id := by
  have h := ws_broadcast_failure_cleanup
    ⟨[⟨"bad", 0, false, ["all"], []⟩, ⟨"good", 1, true, ["all"], []⟩]⟩ "ev" "x"
    (by decide)
  refine ⟨h.1 ⟨"bad", 0, false, ["all"], []⟩ (by decide) (by decide) rfl, ?_⟩
  exact h.2 ⟨"good", 1, true, ["all"], []⟩ (by decide) (Or.inl rfl)

lemma removeClient_spec (cid : String) :
    ∀ (cs : List Client) (c : Client), c ∈ removeClient cid cs →
      c.client_id ≠ cid ∧ c ∈ cs := by
  intro cs
  induction cs with
  | nil => intro c h; simp [removeClient] at h
  | cons a rest ih =>
    intro c h
    by_cases ha : a.client_id = cid
    · rw [removeClient, if_pos ha] at h
      exact ⟨(ih c h).1, List.mem_cons_of_mem _ (ih c h).2⟩
    · rw [removeClient, if_neg ha] at h
      rcases List.mem_cons.mp h with rfl | hm
      · exact ⟨ha, List.mem_cons_self _ _⟩
      · exact ⟨(ih c hm).1, List.mem_cons_of_mem _ (ih c hm).2⟩

lemma removeClient_eq_self (cid : String) :
    ∀ cs : List Client, (∀ c ∈ cs, c.client_id ≠ cid) → removeClient cid cs = cs := by
  intro cs
  induction cs with
  | nil => intro _; rfl
  | cons a rest ih =>
    intro h
    rw [removeClient, if_neg (h a (List.mem_cons_self _ _))]
    rw [ih (fun c hc => h c (List.mem_cons_of_mem _ hc))]

lemma findClient_eq_none (cid : String) :
    ∀ cs : List Client, findClient cid cs = none ↔ ∀ c ∈ cs, c.client_id ≠ cid := by
  intro cs
  induction cs with
  | nil => simp [findClient]
  | cons a rest ih =>
    by_cases ha : a.client_id = cid
    · simp [findClient, if_pos ha, ha]
    · simp only [findClient, if_neg ha, ih]
      constructor
      · intro h c hc
        rcases List.mem_cons.mp hc with rfl | hm
        · exact ha
        · exact h c hm
      · intro h c hc
        exact h c (List.mem_cons_of_mem _ hc)

lemma findClient_mem (cid : String) :
    ∀ (cs : List Client) (c : Client), findClient cid cs = some c →
      c ∈ cs ∧ c.client_id = cid := by
  intro cs
  induction cs with
  | nil => intro c h; cases h
  | cons a rest ih =>
    intro c h
    by_cases ha : a.client_id = cid
    · rw [findClient, if_pos ha] at h
      cases h
      exact ⟨List.mem_cons_self _ _, ha⟩
    · rw [findClient, if_neg ha] at h
      exact ⟨List.mem_cons_of_mem _ (ih c h).1, (ih c h).2⟩

lemma findClient_append_right (cid : String) (l l' : List Client)
    (h : ∀ c ∈ l, c.client_id ≠ cid) :
    findClient cid (l ++ l') = findClient cid l' := by
  induction l with
  | nil => rfl
  | cons a rest ih =>
    rw [List.cons_append, findClient, if_neg (h a (List.mem_cons_self _ _))]
    exact ih (fun c hc => h c (List.mem_cons_of_mem _ hc))

lemma removeClient_length (cid : String) :
    ∀ (cs : List Client), (cs.map Client.client_id).Nodup →
      (∃ c ∈ cs, c.client_id = cid) →
      (removeClient cid cs).length + 1 = cs.length := by
  intro cs
  induction cs with
  | nil => rintro _ ⟨c, hc, _⟩; cases hc
  | cons a rest ih =>
    rintro hnd ⟨c, hc, hcid⟩
    rw [List.map_cons, List.nodup_cons] at hnd
    by_cases ha : a.client_id = cid
    · rw [removeClient, if_pos ha]
      have : ∀ c' ∈ rest, c'.client_id ≠ cid := by
        intro c' hc' hcid'
        exact hnd.1 (by
          rw [ha, ← hcid']
          exact List.mem_map_of_mem Client.client_id hc')
      rw [removeClient_eq_self cid rest this]
      simp
    · rcases List.mem_cons.mp hc with rfl | hm
      · exact absurd hcid ha
      · rw [removeClient, if_neg ha]
        simp only [List.length_cons]
        rw [← ih hnd.2 ⟨c, hm, hcid⟩]

lemma countId_append (cid : String) (l l' : List Client) :
    (l ++ l').countP (fun c => decide (c.client_id = cid)) =
      l.countP (fun c => decide (c.client_id = cid)) +
      l'.countP (fun c => decide (c.client_id = cid)) :=
  List.countP_append _ _ _

lemma countId_removeClient (cid : String) (cs : List Client) :
    (removeClient cid cs).countP (fun c => decide (c.client_id = cid)) = 0 := by
  rw [List.countP_eq_zero]
  intro c hc
  simpa using (removeClient_spec cid cs c hc).1

/-- Claim C8: `WebSocketManager.connect` with an already-registered
`client_id` closes the old client's websocket, leaves exactly one client
under that id, stores the newly supplied websocket for it, and does not grow
`client_count`. -/
theorem ws_connect_duplicate_replaces (m : Manager) (cid : String) (ws : Nat)
    (ok : Bool) (events : Option (List String)) (old : Client)
    (hold : findClient cid m.clients = some old)
    (hnd : (m.clients.map Client.client_id).Nodup) :
    (connect m cid ws ok events).2 = [old.wsId] ∧
    ((connect m cid ws ok events).1.clients.countP
      (fun c => decide (c.client_id = cid))) = 1 ∧
    findClient cid (connect m cid ws ok events).1.clients =
      some ⟨cid, ws, ok, newSubs events, []⟩ ∧
    (connect m cid ws ok events).1.clients.length = m.clients.length := by
  have hmem := findClient_mem cid m.clients old hold
  rw [connect, hold]
  refine ⟨rfl, ?_, ?_, ?_⟩
  · rw [countId_append, countId_removeClient]
    simp [List.countP_cons]
  · rw [findClient_append_right cid _ _
      (fun c hc => (removeClient_spec cid m.clients c hc).1)]
    simp [findClient]
  · simp only [List.length_append, List.length_cons, List.length_nil]
    have := removeClient_length cid m.clients hnd ⟨old, hmem.1, hmem.2⟩
    omega

/-- Witness for C8 at a concrete registry: reconnecting "c1" closes websocket
0, keeps one entry for "c1" holding websocket 7, and the count stays 1. -/
theorem ws_connect_duplicate_replaces_witness :
    (connect ⟨[⟨"c1", 0, true, ["all"], []⟩]⟩ "c1" 7 true (some ["ev"])).2 = [0] ∧
    ((connect ⟨[⟨"c1", 0, true, ["all"], []⟩]⟩ "c1" 7 true
      (some ["ev"])).1.clients.countP (fun c => decide (c.client_id = "c1"))) = 1 ∧
    findClient "c1" (connect ⟨[⟨"c1", 0, true, ["all"], []⟩]⟩ "c1" 7 true
      (some ["ev"])).1.clients = some ⟨"c1", 7, true, newSubs (some ["ev"]), []⟩ ∧
    (connect ⟨[⟨"c1", 0, true, ["all"], []⟩]⟩ "c1" 7 true
      (some ["ev"])).1.clients.length =
      ([⟨"c1", 0, true, ["all"], []⟩] : List Client).length :=
  ws_connect_duplicate_replaces ⟨[⟨"c1", 0, true, ["all"], []⟩]⟩ "c1" 7 true
    (some ["ev"]) ⟨"c1", 0, true, ["all"], []⟩ (by decide) (by decide)

/-- Claim C10: `WebSocketManager.connect` with `events=None` or an empty
events list subscribes the client to the special "all" subscription, and the
client is then targeted by every subsequent broadcast regardless of event
type. -/
theorem ws_connect_default_all (m : Manager) (cid : String) (ws : Nat)
    (ok : Bool) (events : Option (List String))
    (hev : events = none ∨ events = some []) :
    findClient cid (connect m cid ws ok events).1.clients =
      some ⟨cid, ws, ok, [ALL_EVENTS], []⟩ ∧
    ∀ e d : String,
      cid ∈ (broadcastPass e d (connect m cid ws ok events).1.clients).sent := by
  have hsubs : newSubs events = [ALL_EVENTS] := by
    rcases hev with rfl | rfl <;> rfl
  have hfind : findClient cid (connect m cid ws ok events).1.clients =
      some ⟨cid, ws, ok, [ALL_EVENTS], []⟩ := by
    rw [connect]
    rcases hcase : findClient cid m.clients with _ | old
    · simp only
      rw [findClient_append_right cid _ _ ((findClient_eq_none cid m.clients).mp hcase),
        hsubs]
      simp [findClient]
    · simp only
      rw [findClient_append_right cid _ _
        (fun c hc => (removeClient_spec cid m.clients c hc).1), hsubs]
      simp [findClient]
  refine ⟨hfind, ?_⟩
  intro e d
  have hmem := (findClient_mem cid _ _ hfind).1
  exact (mem_sent_iff e d _ cid).mpr
    ⟨⟨cid, ws, ok, [ALL_EVENTS], []⟩, hmem, rfl, Or.inl (List.mem_cons_self _ _)⟩

/-- Witness for C10: connecting "c2" with no events list to an empty manager
gives it the "all" subscription and it is sent an arbitrary broadcast. -/
theorem ws_connect_default_all_witness :
    findClient "c2" (connect ⟨[]⟩ "c2" 3 true none).1.clients =
      some ⟨"c2", 3, true, [ALL_EVENTS], []⟩ ∧
    ("c2" : String) ∈
      (broadcastPass "whatever" "x" (connect ⟨[]⟩ "c2" 3 true none).1.clients).sent := by
  have h := ws_connect_default_all ⟨[]⟩ "c2" 3 true none (Or.inl rfl)
  exact ⟨h.1, h.2 "whatever" "x"⟩

end WS

namespace Emitter

/-- Modelled from the spec: the Event Emitter's handlers (its source module is
not under src/, only its tests).  A handler is an async callback that either
completes or raises; raising is modelled by `Except.error` carrying the error
message. -/
def Handler (α : Type) : Type := α → Except String Unit

/-- Modelled from the spec: what `emit` does with one handler — the handler is
invoked and "a handler raising an error is caught, logged, and does not
prevent remaining handlers from running or propagate to the caller". -/
inductive Outcome where
  | completed : Outcome
  | caught : String → Outcome
deriving DecidableEq

/-- Modelled from the spec: run one handler under `emit`, catching any error. -/
def dispatchOne {α : Type} (h : Handler α) (p : α) : Outcome :=
  match h p with
  | Except.ok _ => Outcome.completed
  | Except.error e => Outcome.caught e

/-- Modelled from the spec: `register(event_kind, handler)` appends the
handler to the ordered list for that kind. -/
def registerHandler {α : Type} (hs : List (Handler α)) (h : Handler α) :
    List (Handler α) := hs ++ [h]

/-- Modelled from the spec: `emit(event_kind, payload)` invokes every handler
registered for the kind in registration order; the trace records, for each
invocation, the payload the handler received and its (caught) outcome.  The
return type carries no error: nothing propagates to the caller of `emit`. -/
def emitAll {α : Type} (hs : List (Handler α)) (p : α) : List (α × Outcome) :=
  match hs with
  | [] => []
  | h :: rest => (p, dispatchOne h p) :: emitAll rest p

lemma emitAll_eq_map {α : Type} (hs : List (Handler α)) (p : α) :
    emitAll hs p = hs.map (fun h => (p, dispatchOne h p)) := by
  induction hs with
  | nil => rfl
  | cons h rest ih => simp [emitAll, ih]

/-- Claim C3: when an event is emitted to several registered handlers, a
handler that raises (handler `i` here) does not prevent a later-registered
handler (`j > i`) from running with the same payload, and the raise never
reaches the caller of `emit` (the trace type of `emitAll` carries no error). -/
theorem handler_error_isolation {α : Type} (hs : List (Handler α)) (p : α)
    (i j : Nat) (e : String) (hij : i < j) (hj : j < hs.length)
    (hi : i < hs.length)
    (hraise : hs.get ⟨i, hi⟩ p = Except.error e) :
    (emitAll hs p).get? j = some (p, dispatchOne (hs.get ⟨j, hj⟩) p) := by
  rw [emitAll_eq_map, List.get?_map, List.get?_eq_get hj]
  rfl

/-- Witness for C3: a raising first handler does not stop the second from
completing on the same payload. -/
theorem handler_error_isolation_witness :
    (emitAll [fun _ => Except.error "boom", fun _ => Except.ok ()] (41 : Nat)).get? 1 =
      some (41, Outcome.completed) := by
  have h := handler_error_isolation
    [fun _ => Except.error "boom", fun _ => Except.ok ()] (41 : Nat)
    0 1 "boom" (by decide) (by decide) (by decide) rfl
  simpa [dispatchOne] using h

end Emitter

/-- Modelled from the spec: the `AIState` enum {IDLE, THINKING, SPEAKING}
(the state module is not under src/, only its tests). -/
inductive AIState where
  | idle : AIState
  | thinking : AIState
  | speaking : AIState
deriving DecidableEq

/-- Modelled from the spec: `CharacterInfo` — {id, name, creator_notes,
text_gen_service}, immutable, identified by id. -/
structure CharacterInfo where
  id : String
  name : String
  creator_notes : String
  text_gen_service : String
deriving DecidableEq

/-- Modelled from the spec: the `CanonicalState` owned by the Bridge
(`GatewayState` in the tests): connection and chat bookkeeping, the AI state,
the characters mapping (id to info, as an association list) and the speaker /
message / external-speaker fields. -/
structure GatewayState where
  connected : Bool
  session_id : Option String
  chat_id : Option String
  chat_active : Bool
  ai_state : AIState
  characters : List (String × CharacterInfo)
  current_speaker_id : Option String
  last_message_id : Option String
  last_message_text : Option String
  external_speaker_active : Bool
  external_speaker_source : Option String
deriving DecidableEq

/-- Modelled from the spec: the default `GatewayState` — disconnected, no
chat, idle, no characters. -/
def initState : GatewayState :=
  ⟨false, none, none, false, AIState.idle, [], none, none, none, false, none⟩

/-- Modelled from the spec: the closed set of raw upstream events of the
Bridge's translation table (§4.3). -/
inductive RawEvent where
  | ready : String → RawEvent
  | chat_started : String → List CharacterInfo → RawEvent
  | chat_closed : RawEvent
  | reply_generating : RawEvent
  | reply_start : String → String → RawEvent
  | reply_chunk : String → Nat → List Char → RawEvent
  | reply_end : String → RawEvent
  | reply_cancelled : String → RawEvent
  | speech_playback_start : RawEvent
  | speech_playback_complete : RawEvent
  | participants_updated : List CharacterInfo → RawEvent
  | message : String → RawEvent
  | message_update : String → RawEvent
  | interrupt_speech : RawEvent
  | action : String → List (String × String) → RawEvent
deriving DecidableEq

/-- Modelled from the spec: the canonical events published by the Emitter
(§6). -/
inductive CanonicalEvent where
  | ready : String → CanonicalEvent
  | chat_started : String → List CharacterInfo → CanonicalEvent
  | chat_closed : CanonicalEvent
  | ai_state_changed : AIState → AIState → CanonicalEvent
  | sentence_ready : List Char → String → String → CanonicalEvent
  | app_trigger : String → List (String × String) → CanonicalEvent
deriving DecidableEq

/-- Modelled from the spec: merge of a participant list into the characters
mapping (upsert by id), used by `chat_started` and `participants_updated`. -/
def upsertChars (cur : List (String × CharacterInfo)) :
    List CharacterInfo → List (String × CharacterInfo)
  | [] => cur
  | p :: ps =>
      upsertChars ((cur.filter (fun kv => kv.1 ≠ p.id)) ++ [(p.id, p)]) ps

/-- Modelled from the spec: the raw-event translation table of §4.3 — each
raw event maps to State Store mutations plus zero or one canonical event
(the buffer feeding of reply_chunk/reply_end is driven by the orchestration
layer and is modelled separately in the `SB` namespace). -/
def applyRaw (ev : RawEvent) (s : GatewayState) :
    GatewayState × List CanonicalEvent :=
  match ev with
  | RawEvent.ready sid =>
      (⟨true, some sid, s.chat_id, s.chat_active, s.ai_state, s.characters,
        s.current_speaker_id, s.last_message_id, s.last_message_text,
        s.external_speaker_active, s.external_speaker_source⟩,
       [CanonicalEvent.ready sid])
  | RawEvent.chat_started cid parts =>
      (⟨s.connected, s.session_id, some cid, true, s.ai_state,
        upsertChars [] parts, s.current_speaker_id, s.last_message_id,
        s.last_message_text, s.external_speaker_active,
        s.external_speaker_source⟩,
       [CanonicalEvent.chat_started cid parts])
  | RawEvent.chat_closed =>
      (⟨s.connected, s.session_id, none, false, s.ai_state, [], none,
        s.last_message_id, s.last_message_text, s.external_speaker_active,
        s.external_speaker_source⟩,
       [CanonicalEvent.chat_closed])
  | RawEvent.reply_generating =>
      (⟨s.connected, s.session_id, s.chat_id, s.chat_active, AIState.thinking,
        s.characters, s.current_speaker_id, s.last_message_id,
        s.last_message_text, s.external_speaker_active,
        s.external_speaker_source⟩,
       [CanonicalEvent.ai_state_changed s.ai_state AIState.thinking])
  | RawEvent.reply_start mid sender =>
      (⟨s.connected, s.session_id, s.chat_id, s.chat_active, s.ai_state,
        s.characters, some sender, some mid, s.last_message_text,
        s.external_speaker_active, s.external_speaker_source⟩, [])
  | RawEvent.reply_chunk _ _ _ => (s, [])
  | RawEvent.reply_end _ => (s, [])
  | RawEvent.reply_cancelled _ =>
      (⟨s.connected, s.session_id, s.chat_id, s.chat_active, AIState.idle,
        s.characters, s.current_speaker_id, s.last_message_id,
        s.last_message_text, s.external_speaker_active,
        s.external_speaker_source⟩, [])
  | RawEvent.speech_playback_start =>
      (⟨s.connected, s.session_id, s.chat_id, s.chat_active, AIState.speaking,
        s.characters, s.current_speaker_id, s.last_message_id,
        s.last_message_text, s.external_speaker_active,
        s.external_speaker_source⟩,
       [CanonicalEvent.ai_state_changed s.ai_state AIState.speaking])
  | RawEvent.speech_playback_complete =>
      (⟨s.connected, s.session_id, s.chat_id, s.chat_active, AIState.idle,
        s.characters, none, s.last_message_id, s.last_message_text,
        s.external_speaker_active, s.external_speaker_source⟩,
       [CanonicalEvent.ai_state_changed s.ai_state AIState.idle])
  | RawEvent.participants_updated parts =>
      (⟨s.connected, s.session_id, s.chat_id, s.chat_active, s.ai_state,
        upsertChars s.characters parts, s.current_speaker_id,
        s.last_message_id, s.last_message_text, s.external_speaker_active,
        s.external_speaker_source⟩, [])
  | RawEvent.message t =>
      (⟨s.connected, s.session_id, s.chat_id, s.chat_active, s.ai_state,
        s.characters, s.current_speaker_id, s.last_message_id, some t,
        s.external_speaker_active, s.external_speaker_source⟩, [])
  | RawEvent.message_update t =>
      (⟨s.connected, s.session_id, s.chat_id, s.chat_active, s.ai_state,
        s.characters, s.current_speaker_id, s.last_message_id, some t,
        s.external_speaker_active, s.external_speaker_source⟩, [])
  | RawEvent.interrupt_speech =>
      (⟨s.connected, s.session_id, s.chat_id, s.chat_active, AIState.idle,
        s.characters, s.current_speaker_id, s.last_message_id,
        s.last_message_text, s.external_speaker_active,
        s.external_speaker_source⟩, [])
  | RawEvent.action name args =>
      (s, [CanonicalEvent.app_trigger name args])

/-- Modelled from the spec: run a sequence of raw events from a state,
collecting the canonical events published along the way. -/
def runEvents (s : GatewayState) : List RawEvent → GatewayState × List CanonicalEvent
  | [] => (s, [])
  | ev :: evs =>
      let r := applyRaw ev s
      let r' := runEvents r.1 evs
      (r'.1, r.2 ++ r'.2)

/-- The `ai_state_changed` new-state values a subscriber observes in a
published event list. -/
def aiStateChanges : List CanonicalEvent → List AIState
  | [] => []
  | CanonicalEvent.ai_state_changed _ ns :: rest => ns :: aiStateChanges rest
  | _ :: rest => aiStateChanges rest

/-- Claim C4: after processing a `chat_closed` event, whatever the prior
state, the characters mapping is empty, `chat_active` is false, `chat_id` is
cleared and `current_speaker_id` is cleared. -/
theorem chat_closed_clears (s : GatewayState) :
    ((applyRaw RawEvent.chat_closed s).1).characters = [] ∧
    ((applyRaw RawEvent.chat_closed s).1).chat_active = false ∧
    ((applyRaw RawEvent.chat_closed s).1).chat_id = none ∧
    ((applyRaw RawEvent.chat_closed s).1).current_speaker_id = none :=
  ⟨rfl, rfl, rfl, rfl⟩

/-- Counterexample to claim C5 as stated: (i) the state reached from the
initial state by a single `speech_playback_start` is SPEAKING with
`current_speaker_id = none` (the translation table's speech_playback_start
row sets no speaker), so SPEAKING does not imply a speaker in every reachable
state; (ii) along the reachable trace reply_start; speech_playback_start;
interrupt_speech, the final transition back to IDLE leaves
`current_speaker_id` set — interruption does not clear it. -/
theorem speaking_invariant_counterexample :
    (((runEvents initState [RawEvent.speech_playback_start]).1).ai_state =
        AIState.speaking ∧
      ((runEvents initState [RawEvent.speech_playback_start]).1).current_speaker_id =
        none) ∧
    (((runEvents initState [RawEvent.reply_start "m1" "c1",
        RawEvent.speech_playback_start, RawEvent.interrupt_speech]).1).ai_state =
        AIState.idle ∧
      ((runEvents initState [RawEvent.reply_start "m1" "c1",
        RawEvent.speech_playback_start, RawEvent.interrupt_speech]).1).current_speaker_id =
        some "c1") :=
  ⟨⟨rfl, rfl⟩, ⟨rfl, rfl⟩⟩

/-- Claim C5, amended: `speech_playback_complete` always returns `ai_state`
to IDLE and clears `current_speaker_id`, and a `speech_playback_start`
followed by `speech_playback_complete` yields the observed `ai_state`
sequence [SPEAKING, IDLE] with `current_speaker_id` cleared at the end; the
blanket reachable-state invariant (SPEAKING implies speaker set) and speaker
clearing on the interrupt/cancel transitions to IDLE do not hold in the
translation table. -/
theorem playback_scenario (s : GatewayState) :
    aiStateChanges (runEvents s [RawEvent.speech_playback_start,
        RawEvent.speech_playback_complete]).2 =
      [AIState.speaking, AIState.idle] ∧
    ((runEvents s [RawEvent.speech_playback_start,
        RawEvent.speech_playback_complete]).1).ai_state = AIState.idle ∧
    ((runEvents s [RawEvent.speech_playback_start,
        RawEvent.speech_playback_complete]).1).current_speaker_id = none ∧
    (∀ t : GatewayState,
      ((applyRaw RawEvent.speech_playback_complete t).1).ai_state = AIState.idle ∧
      ((applyRaw RawEvent.speech_playback_complete t).1).current_speaker_id = none) :=
  ⟨rfl, rfl, rfl, fun _ => ⟨rfl, rfl⟩⟩

namespace Outbound

/-- Modelled from the spec: the session-not-ready failure of §7 — outbound
operations invoked with no active session fail with this error rather than
silently no-op-ing. -/
inductive OutboundError where
  | sessionNotReady : OutboundError
deriving DecidableEq

/-- Modelled from the spec: the authenticated upstream call an outbound
operation performs, keyed by the current `session_id`. -/
inductive OutboundCall where
  | interrupt : String → OutboundCall
  | send_message : String → String → OutboundCall
  | update_context : String → String → String → OutboundCall
  | speech_playback_start : String → String → OutboundCall
  | speech_playback_complete : String → String → OutboundCall
  | character_speech_request : String → String → String → OutboundCall
deriving DecidableEq

/-- Modelled from the spec: every outbound operation first requires an
established session; its absence is the session-not-ready failure. -/
def requireSession (s : GatewayState) : Except OutboundError String :=
  match s.session_id with
  | some sid => Except.ok sid
  | none => Except.error OutboundError.sessionNotReady

/-- Modelled from the spec: `interrupt()`. -/
def interrupt (s : GatewayState) : Except OutboundError OutboundCall :=
  (requireSession s).map OutboundCall.interrupt

/-- Modelled from the spec: `send_message(text, flags...)`. -/
def send_message (s : GatewayState) (text : String) :
    Except OutboundError OutboundCall :=
  (requireSession s).map (fun sid => OutboundCall.send_message sid text)

/-- Modelled from the spec: `update_context(key, contents)`. -/
def update_context (s : GatewayState) (key contents : String) :
    Except OutboundError OutboundCall :=
  (requireSession s).map (fun sid => OutboundCall.update_context sid key contents)

/-- Modelled from the spec: `speech_playback_start(message_id)`. -/
def speech_playback_start (s : GatewayState) (mid : String) :
    Except OutboundError OutboundCall :=
  (requireSession s).map (fun sid => OutboundCall.speech_playback_start sid mid)

/-- Modelled from the spec: `speech_playback_complete(message_id)`. -/
def speech_playback_complete (s : GatewayState) (mid : String) :
    Except OutboundError OutboundCall :=
  (requireSession s).map (fun sid => OutboundCall.speech_playback_complete sid mid)

/-- Modelled from the spec: `character_speech_request(character_id, text)`. -/
def character_speech_request (s : GatewayState) (cid text : String) :
    Except OutboundError OutboundCall :=
  (requireSession s).map
    (fun sid => OutboundCall.character_speech_request sid cid text)

/-- Claim C6: every outbound operation invoked while no session is
established fails with the session-not-ready error, returned to the caller
rather than silently doing nothing. -/
theorem outbound_requires_session (s : GatewayState)
    (hno : s.session_id = none) (text key contents mid cid : String) :
    interrupt s = Except.error OutboundError.sessionNotReady ∧
    send_message s text = Except.error OutboundError.sessionNotReady ∧
    update_context s key contents = Except.error OutboundError.sessionNotReady ∧
    speech_playback_start s mid = Except.error OutboundError.sessionNotReady ∧
    speech_playback_complete s mid = Except.error OutboundError.sessionNotReady ∧
    character_speech_request s cid text =
      Except.error OutboundError.sessionNotReady := by
  have hs : requireSession s = Except.error OutboundError.sessionNotReady := by
    rw [requireSession, hno]
  refine ⟨?_, ?_, ?_, ?_, ?_, ?_⟩ <;>
    simp [interrupt, send_message, update_context, speech_playback_start,
      speech_playback_complete, character_speech_request, hs, Except.map]

/-- Witness for C6 at the initial (sessionless) state. -/
theorem outbound_requires_session_witness :
    interrupt initState = Except.error OutboundError.sessionNotReady ∧
    send_message initState "hi" = Except.error OutboundError.sessionNotReady ∧
    update_context initState "k" "v" = Except.error OutboundError.sessionNotReady ∧
    speech_playback_start initState "m1" =
      Except.error OutboundError.sessionNotReady ∧
    speech_playback_complete initState "m1" =
      Except.error OutboundError.sessionNotReady ∧
    character_speech_request initState "c1" "hi" =
      Except.error OutboundError.sessionNotReady :=
  outbound_requires_session initState rfl "hi" "k" "v" "m1" "c1"

end Outbound

namespace SB

/-- Modelled from the spec: a `SentenceAccumulator` (§3, §4.4) for one
message_id — the buffered out-of-order fragments keyed by start offset, the
contiguous confirmed text starting at offset 0, and the scanned marker (the
confirmed position up to which sentences have been emitted).  Text is a list
of characters, offsets are character offsets. -/
structure Accumulator where
  pending : List (Nat × List Char)
  confirmed : List Char
  scanned : Nat
deriving DecidableEq

/-- Modelled from the spec: insert a fragment into the pending map by offset
(a mapping keyed by start offset: inserting at a held offset replaces). -/
def insertFrag (off : Nat) (txt : List Char) :
    List (Nat × List Char) → List (Nat × List Char)
  | [] => [(off, txt)]
  | (o, t) :: rest =>
      if o = off then (off, txt) :: rest else (o, t) :: insertFrag off txt rest

/-- Modelled from the spec: find and remove the pending fragment at a given
offset, if any. -/
def lookupRemove (key : Nat) :
    List (Nat × List Char) → Option (List Char × List (Nat × List Char))
  | [] => none
  | (o, t) :: rest =>
      if o = key then some (t, rest)
      else
        match lookupRemove key rest with
        | some (t', rest') => some (t', (o, t) :: rest')
        | none => none

lemma lookupRemove_length {key : Nat} :
    ∀ {p : List (Nat × List Char)} {t : List Char} {rest : List (Nat × List Char)},
      lookupRemove key p = some (t, rest) → rest.length + 1 = p.length := by
  intro p
  induction p with
  | nil => intro t rest h; cases h
  | cons e p' ih =>
    intro t rest h
    rcases e with ⟨o, t0⟩
    by_cases ho : o = key
    · rw [lookupRemove, if_pos ho] at h
      cases h
      rfl
    · rw [lookupRemove, if_neg ho] at h
      rcases hrec : lookupRemove key p' with _ | ⟨t', rest'⟩
      · rw [hrec] at h
        cases h
      · rw [hrec] at h
        cases h
        simpa using ih hrec

/-- Modelled from the spec: one round of the confirmed-text extension loop,
fuel-indexed — a fragment extends the confirmed text exactly when its offset
equals the current confirmed length; repeat until no fragment fits.  Each
successful round removes one pending fragment, so fuel `p.length` runs the
loop to completion. -/
def extendFuel : Nat → List (Nat × List Char) → List Char →
    List (Nat × List Char) × List Char
  | 0, p, confirmed => (p, confirmed)
  | fuel + 1, p, confirmed =>
      match lookupRemove confirmed.length p with
      | none => (p, confirmed)
      | some (t, rest) => extendFuel fuel rest (confirmed ++ t)

/-- Modelled from the spec: extend the contiguous confirmed text starting at
offset 0 using the currently held fragments, until no fragment fits. -/
def extendConfirmed (p : List (Nat × List Char)) (confirmed : List Char) :
    List (Nat × List Char) × List Char :=
  extendFuel p.length p confirmed

/-- Modelled from the spec: sentence-terminal punctuation. -/
def isTerminal (c : Char) : Bool :=
  c = '.' || c = '!' || c = '?'

/-- Modelled from the spec: position `i` of the confirmed text is a sentence
boundary when it holds terminal punctuation followed by whitespace or the
end of the confirmed text. -/
def isBoundary (l : List Char) (i : Nat) : Bool :=
  match l.get? i with
  | none => false
  | some c =>
      isTerminal c &&
        (match l.get? (i + 1) with
         | none => true
         | some c2 => c2.isWhitespace)

/-- Modelled from the spec: scan the confirmed text `l` from position `i`
(sentences emitted so far reach up to `start`); each boundary found emits the
delimited span exactly once and advances the marker past it.  Returns the
emitted sentences and the new scanned marker. -/
def scanFrom (l : List Char) (start i : Nat) : List (List Char) × Nat :=
  if h : i < l.length then
    if isBoundary l i then
      (((l.drop start).take (i + 1 - start)) :: (scanFrom l (i + 1) (i + 1)).1,
        (scanFrom l (i + 1) (i + 1)).2)
    else scanFrom l start (i + 1)
  else ([], start)
termination_by l.length - i

/-- Modelled from the spec: handle one chunk for this accumulator — a chunk
at an already-confirmed offset is ignored (the StaleChunkError of §7,
silently swallowed); otherwise insert by offset, extend the confirmed text,
and scan for newly completed sentences.  Returns the updated accumulator and
the sentences emitted by this chunk. -/
def processChunk (acc : Accumulator) (off : Nat) (txt : List Char) :
    Accumulator × List (List Char) :=
  if off < acc.confirmed.length then (acc, [])
  else
    (⟨(extendConfirmed (insertFrag off txt acc.pending) acc.confirmed).1,
      (extendConfirmed (insertFrag off txt acc.pending) acc.confirmed).2,
      (scanFrom (extendConfirmed (insertFrag off txt acc.pending) acc.confirmed).2
        acc.scanned acc.scanned).2⟩,
     (scanFrom (extendConfirmed (insertFrag off txt acc.pending) acc.confirmed).2
       acc.scanned acc.scanned).1)

/-- Modelled from the spec: the `reply_end` flush — emit any remaining
confirmed text past the scanned marker as a final sentence (even without
terminal punctuation); the accumulator is destroyed afterwards. -/
def flushAcc (acc : Accumulator) : List (List Char) :=
  if acc.confirmed.drop acc.scanned = [] then []
  else [acc.confirmed.drop acc.scanned]

/-- Modelled from the spec: the accumulator created on the first chunk for a
message_id. -/
def initAcc : Accumulator := ⟨[], [], 0⟩

/-- Deliver a list of chunks to an accumulator in order, collecting the
emitted sentences. -/
def runChunks (acc : Accumulator) (out : List (List Char)) :
    List (Nat × List Char) → Accumulator × List (List Char)
  | [] => (acc, out)
  | (o, t) :: ds =>
      let r := processChunk acc o t
      runChunks r.1 (out ++ r.2) ds

/-- A full reply lifecycle for one message_id: deliver the chunks, then
flush on `reply_end`.  Returns all emitted sentences in emission order. -/
def runReply (ds : List (Nat × List Char)) : List (List Char) :=
  ((runChunks initAcc [] ds).2) ++ flushAcc (runChunks initAcc [] ds).1

/-- The offsets a contiguous chunked reply carries: chunk `i` starts where
chunk `i - 1` ended (the "covers the reply contiguously from offset 0"
premise of the spec's reassembly property). -/
def withOffsets : Nat → List (List Char) → List (Nat × List Char)
  | _, [] => []
  | n, c :: cs => (n, c) :: withOffsets (n + c.length) cs

/-- The length of the reply text covered by the first `k` chunks. -/
def totLen (cs : List (List Char)) (k : Nat) : Nat :=
  ((cs.take k).flatten).length

lemma flattenTake_succ (cs : List (List Char)) {k : Nat} (h : k < cs.length) :
    (cs.take (k + 1)).flatten = (cs.take k).flatten ++ cs[k] := by
  induction cs generalizing k with
  | nil => simp at h
  | cons c cs' ih =>
    cases k with
    | zero => simp
    | succ k' =>
      have h' : k' < cs'.length := by simpa using h
      simp only [List.take_succ_cons, List.flatten_cons, List.getElem_cons_succ, ih h']
      simp [List.append_assoc]

lemma totLen_succ (cs : List (List Char)) {k : Nat} (h : k < cs.length) :
    totLen cs (k + 1) = totLen cs k + (cs[k]).length := by
  unfold totLen
  rw [flattenTake_succ cs h]
  simp

lemma totLen_le (cs : List (List Char)) {j k : Nat} (h : j ≤ k) :
    totLen cs j ≤ totLen cs k := by
  induction k with
  | zero =>
    have : j = 0 := by omega
    subst this
    exact le_refl _
  | succ k ih =>
    by_cases hj : j = k + 1
    · subst hj
      exact le_refl _
    · have hjk : j ≤ k := by omega
      by_cases hk : k < cs.length
      · have := totLen_succ cs hk
        have := ih hjk
        omega
      · have heq : totLen cs (k + 1) = totLen cs k := by
          unfold totLen
          rw [List.take_of_length_le (by omega), List.take_of_length_le (by omega)]
        rw [heq]
        exact ih hjk

lemma totLen_lt (cs : List (List Char)) (hne : ∀ c ∈ cs, c ≠ [])
    {j k : Nat} (hjk : j < k) (hk : k ≤ cs.length) :
    totLen cs j < totLen cs k := by
  have hj : j < cs.length := by omega
  have hpos : 0 < (cs[j]).length :=
    List.length_pos.mpr (hne _ (List.getElem_mem hj))
  have hsucc := totLen_succ cs hj
  have hle : totLen cs (j + 1) ≤ totLen cs k := totLen_le cs (by omega)
  omega

lemma withOffsets_length (cs : List (List Char)) :
    ∀ n, (withOffsets n cs).length = cs.length := by
  induction cs with
  | nil => intro n; rfl
  | cons c cs' ih => intro n; simp [withOffsets, ih]

lemma mem_withOffsets (cs : List (List Char)) :
    ∀ (n : Nat) (e : Nat × List Char), e ∈ withOffsets n cs →
      ∃ j, ∃ h : j < cs.length, e = (n + totLen cs j, cs[j]) := by
  induction cs with
  | nil => intro n e he; cases he
  | cons c cs' ih =>
    intro n e he
    rcases List.mem_cons.mp he with rfl | hm
    · exact ⟨0, by simp, by simp [totLen]⟩
    · rcases ih (n + c.length) e hm with ⟨j, hj, hej⟩
      refine ⟨j + 1, by simpa using Nat.succ_lt_succ hj, ?_⟩
      rw [hej]
      have harith : n + c.length + totLen cs' j = n + totLen (c :: cs') (j + 1) := by
        simp [totLen, List.take_succ_cons, List.flatten_cons]
        omega
      rw [List.getElem_cons_succ]
      rw [harith]

lemma mem_withOffsets_intro (cs : List (List Char)) :
    ∀ (n j : Nat) (h : j < cs.length),
      (n + totLen cs j, cs[j]) ∈ withOffsets n cs := by
  induction cs with
  | nil => intro n j h; simp at h
  | cons c cs' ih =>
    intro n j h
    cases j with
    | zero => simp [withOffsets, totLen]
    | succ j' =>
      have hj' : j' < cs'.length := by simpa using h
      have harith : n + totLen (c :: cs') (j' + 1) = (n + c.length) + totLen cs' j' := by
        simp [totLen, List.take_succ_cons, List.flatten_cons]
        omega
      rw [List.getElem_cons_succ, harith]
      exact List.mem_cons_of_mem _ (ih (n + c.length) j' hj')

lemma take_withOffsets (cs : List (List Char)) :
    ∀ (n k : Nat), (withOffsets n cs).take k = withOffsets n (cs.take k) := by
  induction cs with
  | nil => intro n k; simp [withOffsets]
  | cons c cs' ih =>
    intro n k
    cases k with
    | zero => rfl
    | succ k' => simp [withOffsets, List.take_succ_cons, ih]

lemma drop_withOffsets (cs : List (List Char)) :
    ∀ (n k : Nat), (withOffsets n cs).drop k =
      withOffsets (n + totLen cs k) (cs.drop k) := by
  induction cs with
  | nil => intro n k; simp [withOffsets]
  | cons c cs' ih =>
    intro n k
    cases k with
    | zero => simp [totLen]
    | succ k' =>
      have harith : n + totLen (c :: cs') (k' + 1) = (n + c.length) + totLen cs' k' := by
        simp [totLen, List.take_succ_cons, List.flatten_cons]
        omega
      rw [harith]
      simpa [withOffsets] using ih (n + c.length) k'

lemma withOffsets_offset_ge (cs : List (List Char)) (n : Nat)
    (e : Nat × List Char) (he : e ∈ withOffsets n cs) : n ≤ e.1 := by
  rcases mem_withOffsets cs n e he with ⟨j, hj, rfl⟩
  simp

lemma withOffsets_pairwise (cs : List (List Char)) (hne : ∀ c ∈ cs, c ≠ []) :
    ∀ n, List.Pairwise (fun a b : Nat × List Char => a.1 < b.1)
      (withOffsets n cs) := by
  induction cs with
  | nil => intro n; exact List.Pairwise.nil
  | cons c cs' ih =>
    intro n
    refine List.Pairwise.cons ?_ (ih (fun x hx => hne x (List.mem_cons_of_mem _ hx)) _)
    intro e he
    have h1 : n + c.length ≤ e.1 := withOffsets_offset_ge cs' (n + c.length) e he
    have h2 : 0 < c.length := List.length_pos.mpr (hne c (List.mem_cons_self _ _))
    simp only
    omega

lemma withOffsets_nodup (cs : List (List Char)) (hne : ∀ c ∈ cs, c ≠ [])
    (n : Nat) : (withOffsets n cs).Nodup :=
  (withOffsets_pairwise cs hne n).imp (fun h => by
    intro heq
    rw [heq] at h
    exact lt_irrefl _ h)

lemma withOffsets_key_inj (cs : List (List Char)) (hne : ∀ c ∈ cs, c ≠ [])
    {e : Nat × List Char} (he : e ∈ withOffsets 0 cs) {k : Nat}
    (hk : k ≤ cs.length) (hkey : e.1 = totLen cs k) :
    ∃ h : k < cs.length, e = (totLen cs k, cs[k]) := by
  rcases mem_withOffsets cs 0 e he with ⟨j, hj, rfl⟩
  simp only [Nat.zero_add] at hkey ⊢
  have hjk : j = k := by
    rcases Nat.lt_trichotomy j k with h | h | h
    · exact absurd hkey (Nat.ne_of_lt (totLen_lt cs hne h hk))
    · exact h
    · exact absurd hkey.symm (Nat.ne_of_lt (totLen_lt cs hne h (by omega)))
  subst hjk
  exact ⟨hj, by rw [hkey]⟩

lemma lookupRemove_none {key : Nat} :
    ∀ (p : List (Nat × List Char)), lookupRemove key p = none →
      ∀ e ∈ p, e.1 ≠ key := by
  intro p
  induction p with
  | nil => intro _ e he; cases he
  | cons a p' ih =>
    intro h e he
    rcases a with ⟨o, t0⟩
    by_cases ho : o = key
    · rw [lookupRemove, if_pos ho] at h
      cases h
    · rw [lookupRemove, if_neg ho] at h
      rcases hrec : lookupRemove key p' with _ | pr
      · rcases List.mem_cons.mp he with rfl | hm
        · exact ho
        · exact ih hrec e hm
      · rw [hrec] at h
        rcases pr with ⟨t', rest'⟩
        cases h

lemma lookupRemove_some {key : Nat} :
    ∀ (p rest : List (Nat × List Char)) (t : List Char),
      lookupRemove key p = some (t, rest) →
      (key, t) ∈ p ∧ p.Perm ((key, t) :: rest) ∧ rest.Sublist p := by
  intro p
  induction p with
  | nil => intro rest t h; cases h
  | cons a p' ih =>
    intro rest t h
    rcases a with ⟨o, t0⟩
    by_cases ho : o = key
    · rw [lookupRemove, if_pos ho] at h
      cases h
      subst ho
      exact ⟨List.mem_cons_self _ _, List.Perm.refl _, List.sublist_cons_self _ _⟩
    · rw [lookupRemove, if_neg ho] at h
      rcases hrec : lookupRemove key p' with _ | ⟨t', rest'⟩
      · rw [hrec] at h
        cases h
      · rw [hrec] at h
        simp only [Option.some.injEq, Prod.mk.injEq] at h
        obtain ⟨ht, hrest⟩ := h
        rw [← hrest, ← ht]
        rcases ih rest' t' hrec with ⟨hmem, hperm, hsub⟩
        refine ⟨List.mem_cons_of_mem _ hmem, ?_, List.Sublist.cons₂ _ hsub⟩
        exact List.Perm.trans (List.Perm.cons _ hperm) (List.Perm.swap _ _ _)

lemma insertFrag_fresh {off : Nat} {txt : List Char} :
    ∀ (p : List (Nat × List Char)), (∀ e ∈ p, e.1 ≠ off) →
      insertFrag off txt p = p ++ [(off, txt)] := by
  intro p
  induction p with
  | nil => intro _; rfl
  | cons a p' ih =>
    intro h
    rcases a with ⟨o, t0⟩
    have ho : o ≠ off := h (o, t0) (List.mem_cons_self _ _)
    rw [insertFrag, if_neg ho, ih (fun e he => h e (List.mem_cons_of_mem _ he))]
    rfl

lemma scanFrom_spec (l : List Char) :
    ∀ (n i start : Nat), l.length - i = n → start ≤ i → i ≤ l.length →
      start ≤ (scanFrom l start i).2 ∧ (scanFrom l start i).2 ≤ l.length ∧
      (scanFrom l start i).1.flatten =
        (l.drop start).take ((scanFrom l start i).2 - start) := by
  intro n
  induction n using Nat.strong_induction_on with
  | _ n ih =>
    intro i start hn hsi hil
    rw [scanFrom]
    by_cases h : i < l.length
    · rw [dif_pos h]
      by_cases hb : isBoundary l i
      · rw [if_pos hb]
        have hrec := ih (l.length - (i + 1)) (by omega) (i + 1) (i + 1) rfl
          (le_refl _) (by omega)
        rcases hrec with ⟨h1, h2, h3⟩
        refine ⟨by omega, h2, ?_⟩
        simp only [List.flatten_cons, h3]
        have ha : (scanFrom l (i + 1) (i + 1)).2 - start =
            (i + 1 - start) + ((scanFrom l (i + 1) (i + 1)).2 - (i + 1)) := by
          omega
        rw [ha, List.take_add]
        congr 1
        have hd : (i + 1 - start) + start = i + 1 := by omega
        rw [List.drop_drop, Nat.add_comm start (i + 1 - start), hd]
      · rw [if_neg hb]
        exact ih (l.length - (i + 1)) (by omega) (i + 1) start rfl (by omega) (by omega)
    · rw [dif_neg h]
      refine ⟨le_refl _, by omega, by simp⟩

lemma extend_spec (cs : List (List Char)) (hne : ∀ c ∈ cs, c ≠ []) :
    ∀ (fuel : Nat) (p : List (Nat × List Char)) (k : Nat),
      p.length ≤ fuel →
      k ≤ cs.length →
      p.Nodup →
      (∀ e ∈ p, e ∈ withOffsets 0 cs) →
      (∀ e ∈ p, totLen cs k ≤ e.1) →
      ∃ k' p', k ≤ k' ∧ k' ≤ cs.length ∧
        extendFuel fuel p ((cs.take k).flatten) = (p', (cs.take k').flatten) ∧
        p.Perm ((((withOffsets 0 cs).drop k).take (k' - k)) ++ p') ∧
        p'.Nodup ∧ (∀ e ∈ p', e ∈ withOffsets 0 cs) ∧
        (∀ e ∈ p', totLen cs k' < e.1) := by
  intro fuel
  induction fuel with
  | zero =>
    intro p k hlen hk hnd hmem hge
    have hp : p = [] := List.length_eq_zero.mp (by omega)
    subst hp
    exact ⟨k, [], le_refl _, hk, rfl, by simp, List.nodup_nil, by simp, by simp⟩
  | succ fuel ihf =>
    intro p k hlen hk hnd hmem hge
    rcases hlr : lookupRemove ((cs.take k).flatten).length p with _ | ⟨t, rest⟩
    · refine ⟨k, p, le_refl _, hk, ?_, by simp, hnd, hmem, ?_⟩
      · simp only [extendFuel, hlr]
      · intro e he
        have h1 : totLen cs k ≤ e.1 := hge e he
        have h2 : e.1 ≠ ((cs.take k).flatten).length := lookupRemove_none p hlr e he
        have h3 : e.1 ≠ totLen cs k := h2
        omega
    · have hkey : (((cs.take k).flatten).length, t).1 = totLen cs k := rfl
      rcases lookupRemove_some p rest t hlr with ⟨hmem0, hperm0, hsub0⟩
      have hoffs := hmem _ hmem0
      rcases withOffsets_key_inj cs hne hoffs hk hkey with ⟨hklt, hent⟩
      have ht : t = cs[k] := congrArg Prod.snd hent
      have hk1 : k + 1 ≤ cs.length := hklt
      have hrestlen : rest.length ≤ fuel := by
        have := lookupRemove_length hlr
        omega
      have hrestnd : rest.Nodup := hsub0.nodup hnd
      have hrestmem : ∀ e ∈ rest, e ∈ withOffsets 0 cs :=
        fun e he => hmem e (hsub0.subset he)
      have hnotin : ((((cs.take k).flatten).length, t)) ∉ rest :=
        (List.nodup_cons.mp (hperm0.nodup hnd)).1
      have hrestge : ∀ e ∈ rest, totLen cs (k + 1) ≤ e.1 := by
        intro e he
        have h1 : totLen cs k ≤ e.1 := hge e (hsub0.subset he)
        have h2 : e.1 ≠ totLen cs k := by
          intro hkeyeq
          rcases withOffsets_key_inj cs hne (hrestmem e he) hk hkeyeq with ⟨_, heeq⟩
          rw [hent] at hnotin
          rw [heeq] at he
          exact hnotin he
        rcases mem_withOffsets cs 0 e (hrestmem e he) with ⟨j, hj, hej⟩
        have hej1 : e.1 = totLen cs j := by rw [hej]; simp
        have hjk : k < j := by
          by_contra hle
          push_neg at hle
          have := totLen_le cs hle
          omega
        have hge1 : totLen cs (k + 1) ≤ totLen cs j := totLen_le cs (by omega)
        omega
      rcases ihf rest (k + 1) hrestlen hk1 hrestnd hrestmem hrestge with
        ⟨k', p', hkk', hk', heq, hperm', hnd', hmem', hgt'⟩
      have hdrop : (withOffsets 0 cs).drop k =
          (totLen cs k, cs[k]) :: (withOffsets 0 cs).drop (k + 1) := by
        rw [drop_withOffsets cs 0 k, drop_withOffsets cs 0 (k + 1), Nat.zero_add,
          Nat.zero_add, List.drop_eq_getElem_cons hklt, withOffsets,
          ← totLen_succ cs hklt]
      have hseg : ((withOffsets 0 cs).drop k).take (k' - k) =
          (totLen cs k, cs[k]) ::
            (((withOffsets 0 cs).drop (k + 1)).take (k' - (k + 1))) := by
        rw [hdrop]
        have ht2 : k' - k = (k' - (k + 1)) + 1 := by omega
        rw [ht2, List.take_succ_cons]
      refine ⟨k', p', by omega, hk', ?_, ?_, hnd', hmem', hgt'⟩
      · simp only [extendFuel, hlr]
        rw [ht, ← flattenTake_succ cs hklt]
        exact heq
      · rw [hseg]
        simp only [List.cons_append]
        have hstep := List.Perm.cons ((((cs.take k).flatten).length, t)) hperm'
        rw [hent] at hstep hperm0
        exact List.Perm.trans hperm0 hstep

/-- The reassembly invariant: after some deliveries, the accumulator's
confirmed text is the concatenation of a prefix of the reply's chunks, the
delivered chunk multiset splits into that confirmed prefix plus the pending
fragments, every pending fragment is a real chunk lying strictly beyond the
confirmed prefix, and the sentences emitted so far concatenate to the
confirmed text up to the scanned marker. -/
def Inv (cs : List (List Char)) (acc : Accumulator) (out : List (List Char))
    (delivered : List (Nat × List Char)) : Prop :=
  ∃ k, k ≤ cs.length ∧
    acc.confirmed = (cs.take k).flatten ∧
    delivered.Perm (((withOffsets 0 cs).take k) ++ acc.pending) ∧
    acc.pending.Nodup ∧
    (∀ e ∈ acc.pending, e ∈ withOffsets 0 cs) ∧
    (∀ e ∈ acc.pending, totLen cs k < e.1) ∧
    acc.scanned ≤ acc.confirmed.length ∧
    out.flatten = acc.confirmed.take acc.scanned

lemma step_inv (cs : List (List Char)) (hne : ∀ c ∈ cs, c ≠ [])
    (acc : Accumulator) (out : List (List Char))
    (delivered : List (Nat × List Char)) (x : Nat × List Char)
    (hx : x ∈ withOffsets 0 cs) (hxnew : x ∉ delivered)
    (hinv : Inv cs acc out delivered) :
    Inv cs (processChunk acc x.1 x.2).1 (out ++ (processChunk acc x.1 x.2).2)
      (delivered ++ [x]) := by
  rcases hinv with ⟨k, hk, hconf, hperm, hnd, hmem, hgt, hscan, hout⟩
  rcases mem_withOffsets cs 0 x hx with ⟨j, hj, hxj⟩
  have hx1 : x.1 = totLen cs j := by rw [hxj]; simp
  have hconflen : acc.confirmed.length = totLen cs k := by rw [hconf]; rfl
  have hnostale : ¬ (x.1 < acc.confirmed.length) := by
    intro hlt
    rw [hconflen] at hlt
    have hlt' : totLen cs j < totLen cs k := by rw [← hx1]; exact hlt
    have hjk : j < k := by
      by_contra hle
      push_neg at hle
      have := totLen_le cs hle
      omega
    have hjlen : j < (cs.take k).length := by
      rw [List.length_take]
      exact lt_min hjk hj
    have hintro := mem_withOffsets_intro (cs.take k) 0 j hjlen
    have htotj : totLen (cs.take k) j = totLen cs j := by
      unfold totLen
      rw [List.take_take, min_eq_left (by omega : j ≤ k)]
    rw [htotj, List.getElem_take] at hintro
    rw [← take_withOffsets] at hintro
    rw [← hxj] at hintro
    exact hxnew ((hperm.mem_iff).mpr (List.mem_append_left _ hintro))
  have hxpend : x ∉ acc.pending := by
    intro hxe
    exact hxnew ((hperm.mem_iff).mpr (List.mem_append_right _ hxe))
  have hfresh : ∀ e ∈ acc.pending, e.1 ≠ x.1 := by
    intro e he heq
    have hkey : e.1 = totLen cs j := by rw [heq, hx1]
    rcases withOffsets_key_inj cs hne (hmem e he) (le_of_lt hj) hkey with ⟨_, hee⟩
    have hex : e = x := by rw [hee, hxj]; simp
    rw [hex] at he
    exact hxpend he
  have hp1 : insertFrag x.1 x.2 acc.pending = acc.pending ++ [x] := by
    rw [insertFrag_fresh acc.pending hfresh]
  have hnd1 : (acc.pending ++ [x]).Nodup := by
    rw [List.nodup_append]
    refine ⟨hnd, List.nodup_singleton _, ?_⟩
    intro a ha hb
    rw [List.mem_singleton.mp hb] at ha
    exact hxpend ha
  have hmem1 : ∀ e ∈ acc.pending ++ [x], e ∈ withOffsets 0 cs := by
    intro e he
    rcases List.mem_append.mp he with h | h
    · exact hmem e h
    · rw [List.mem_singleton.mp h]
      exact hx
  have hge1 : ∀ e ∈ acc.pending ++ [x], totLen cs k ≤ e.1 := by
    intro e he
    rcases List.mem_append.mp he with h | h
    · exact le_of_lt (hgt e h)
    · rw [List.mem_singleton.mp h]
      rw [hconflen] at hnostale
      omega
  rcases extend_spec cs hne (acc.pending ++ [x]).length (acc.pending ++ [x]) k
      (le_refl _) hk hnd1 hmem1 hge1 with
    ⟨k', p', hkk', hk', heq, hperm1, hnd', hmem', hgt'⟩
  have hres : processChunk acc x.1 x.2 =
      (⟨p', (cs.take k').flatten,
        (scanFrom ((cs.take k').flatten) acc.scanned acc.scanned).2⟩,
       (scanFrom ((cs.take k').flatten) acc.scanned acc.scanned).1) := by
    rw [processChunk, if_neg hnostale, extendConfirmed, hp1, hconf, heq]
  have hlen' : ((cs.take k').flatten).length = totLen cs k' := rfl
  have hscanle : acc.scanned ≤ ((cs.take k').flatten).length := by
    rw [hlen']
    have h1 : totLen cs k ≤ totLen cs k' := totLen_le cs hkk'
    rw [hconflen] at hscan
    omega
  rcases scanFrom_spec ((cs.take k').flatten)
      (((cs.take k').flatten).length - acc.scanned) acc.scanned acc.scanned rfl
      (le_refl _) hscanle with ⟨hs1, hs2, hs3⟩
  have hsplit : (cs.take k').flatten =
      acc.confirmed ++ ((cs.drop k).take (k' - k)).flatten := by
    have h1 := List.take_add cs k (k' - k)
    rw [show k + (k' - k) = k' by omega] at h1
    rw [h1, List.flatten_append, hconf]
  rw [hres]
  refine ⟨k', hk', rfl, ?_, hnd', hmem', hgt', hs2, ?_⟩
  · have hA : (delivered ++ [x]).Perm
        ((withOffsets 0 cs).take k ++ (acc.pending ++ [x])) := by
      have h := hperm.append_right [x]
      rwa [List.append_assoc] at h
    have hB := List.Perm.append_left ((withOffsets 0 cs).take k) hperm1
    have hC : (withOffsets 0 cs).take k ++
        ((withOffsets 0 cs).drop k).take (k' - k) = (withOffsets 0 cs).take k' := by
      have h := List.take_add (withOffsets 0 cs) k (k' - k)
      rw [show k + (k' - k) = k' by omega] at h
      exact h.symm
    have hD : (withOffsets 0 cs).take k ++
        (((withOffsets 0 cs).drop k).take (k' - k) ++ p') =
          (withOffsets 0 cs).take k' ++ p' := by
      rw [← List.append_assoc, hC]
    have hE : ((withOffsets 0 cs).take k ++
        (((withOffsets 0 cs).drop k).take (k' - k) ++ p')).Perm
          ((withOffsets 0 cs).take k' ++ p') := by
      rw [hD]
    exact (hA.trans hB).trans hE
  · simp only [List.flatten_append, hout, hs3]
    have hpre : ((cs.take k').flatten).take acc.scanned =
        acc.confirmed.take acc.scanned := by
      rw [hsplit]
      exact List.take_append_of_le_length (by rw [hconflen] at hscan ⊢; omega)
    have hfin : ((cs.take k').flatten).take
        ((scanFrom ((cs.take k').flatten) acc.scanned acc.scanned).2) =
          ((cs.take k').flatten).take acc.scanned ++
            (((cs.take k').flatten).drop acc.scanned).take
              ((scanFrom ((cs.take k').flatten) acc.scanned acc.scanned).2 -
                acc.scanned) := by
      have h := List.take_add ((cs.take k').flatten) acc.scanned
        ((scanFrom ((cs.take k').flatten) acc.scanned acc.scanned).2 - acc.scanned)
      rwa [show acc.scanned +
          ((scanFrom ((cs.take k').flatten) acc.scanned acc.scanned).2 -
            acc.scanned) =
          (scanFrom ((cs.take k').flatten) acc.scanned acc.scanned).2 by omega] at h
    rw [hfin, hpre]

lemma runChunks_inv (cs : List (List Char)) (hne : ∀ c ∈ cs, c ≠ []) :
    ∀ (ds : List (Nat × List Char)) (acc : Accumulator)
      (out : List (List Char)) (delivered : List (Nat × List Char)),
      (delivered ++ ds).Perm (withOffsets 0 cs) →
      Inv cs acc out delivered →
      Inv cs (runChunks acc out ds).1 (runChunks acc out ds).2 (delivered ++ ds) := by
  intro ds
  induction ds with
  | nil =>
    intro acc out delivered hperm hinv
    simpa [runChunks] using hinv
  | cons x ds' ih =>
    obtain ⟨xo, xt⟩ := x
    intro acc out delivered hperm hinv
    have hxoffs : (xo, xt) ∈ withOffsets 0 cs := hperm.subset (by simp)
    have hnd2 : (delivered ++ (xo, xt) :: ds').Nodup :=
      hperm.symm.nodup (withOffsets_nodup cs hne 0)
    have hxnew : (xo, xt) ∉ delivered := by
      intro hmem
      have h3 := (List.nodup_cons.mp (List.Perm.nodup List.perm_middle hnd2)).1
      exact h3 (List.mem_append_left _ hmem)
    have hstep := step_inv cs hne acc out delivered (xo, xt) hxoffs hxnew hinv
    have hperm' : ((delivered ++ [(xo, xt)]) ++ ds').Perm (withOffsets 0 cs) := by
      rwa [List.append_assoc, List.singleton_append]
    have hrec := ih (processChunk acc xo xt).1 (out ++ (processChunk acc xo xt).2)
      (delivered ++ [(xo, xt)]) hperm' hstep
    rw [List.append_assoc, List.singleton_append] at hrec
    simpa [runChunks] using hrec

/-- Claim C1: for a single message_id, whatever the delivery permutation of
a reply's chunks, as long as the full chunk set covers the reply contiguously
from offset 0 (each chunk is a nonempty fragment starting where the previous
one ended), the concatenation of the sentences emitted by the Sentence
Reassembly Buffer — in emission order, including the final flush on
`reply_end` — equals the concatenation of the chunks in offset order. -/
theorem sentence_reassembly (chunks : List (List Char))
    (deliveries : List (Nat × List Char))
    (hne : ∀ c ∈ chunks, c ≠ [])
    (hcover : deliveries.Perm (withOffsets 0 chunks)) :
    (runReply deliveries).flatten = chunks.flatten := by
  have hinv0 : Inv chunks initAcc [] [] :=
    ⟨0, Nat.zero_le _, rfl, by simp [initAcc], List.nodup_nil, by simp [initAcc],
      by simp [initAcc], Nat.le_refl 0, rfl⟩
  have hrun := runChunks_inv chunks hne deliveries initAcc [] []
    (by simpa using hcover) hinv0
  rcases hrun with ⟨k, hk, hconf, hperm, hnd, hmem, hgt, hscan, hout⟩
  rw [List.nil_append] at hperm
  have hkeq : k = chunks.length := by
    by_contra hkne
    have hklt : k < chunks.length := lt_of_le_of_ne hk hkne
    have hintro := mem_withOffsets_intro chunks 0 k hklt
    have hofferm : (withOffsets 0 chunks).Perm
        ((withOffsets 0 chunks).take k ++
          (runChunks initAcc [] deliveries).1.pending) :=
      hcover.symm.trans hperm
    have hmem2 := (hofferm.mem_iff).mp hintro
    rcases List.mem_append.mp hmem2 with hA | hB
    · rw [take_withOffsets] at hA
      rcases mem_withOffsets (chunks.take k) 0 _ hA with ⟨j, hjlen, hjel⟩
      have hj2 : j < k := by
        rw [List.length_take] at hjlen
        exact lt_of_lt_of_le hjlen (min_le_left _ _)
      have htotj : totLen (chunks.take k) j = totLen chunks j := by
        unfold totLen
        rw [List.take_take, min_eq_left (le_of_lt hj2)]
      have hfst := congrArg Prod.fst hjel
      simp only [Nat.zero_add] at hfst
      rw [htotj] at hfst
      have hlt := totLen_lt chunks hne hj2 hk
      omega
    · have hgtk := hgt _ hB
      simp only [Nat.zero_add] at hgtk
      omega
  subst hkeq
  have htakeall : (withOffsets 0 chunks).take chunks.length =
      withOffsets 0 chunks := by
    rw [← withOffsets_length chunks 0, List.take_length]
  have hlen := hperm.length_eq
  rw [htakeall, List.length_append] at hlen
  have hdlen : deliveries.length = (withOffsets 0 chunks).length :=
    hcover.length_eq
  rw [withOffsets_length] at hdlen hlen
  have hplen : (runChunks initAcc [] deliveries).1.pending.length = 0 := by
    omega
  have hconf' : (runChunks initAcc [] deliveries).1.confirmed = chunks.flatten := by
    rw [hconf, List.take_length]
  have hflush : (flushAcc (runChunks initAcc [] deliveries).1).flatten =
      (runChunks initAcc [] deliveries).1.confirmed.drop
        (runChunks initAcc [] deliveries).1.scanned := by
    rw [flushAcc]
    by_cases hem : (runChunks initAcc [] deliveries).1.confirmed.drop
        (runChunks initAcc [] deliveries).1.scanned = []
    · rw [if_pos hem, hem]
      rfl
    · rw [if_neg hem]
      simp
  rw [runReply, List.flatten_append, hout, hflush, List.take_append_drop, hconf']

/-- Witness for C1: the two-chunk reply "a." ++ "b" delivered in reversed
order reassembles to the chunk concatenation. -/
theorem sentence_reassembly_witness :
    (runReply [(2, ['b']), (0, ['a', '.'])]).flatten =
      ([['a', '.'], ['b']] : List (List Char)).flatten :=
  sentence_reassembly [['a', '.'], ['b']] [(2, ['b']), (0, ['a', '.'])]
    (by decide) (by decide)

/-- Claim C7: a chunk whose offset is already inside the confirmed text is
silently ignored — `processChunk` is total (nothing is raised) and the
delivery neither changes the accumulator nor emits anything, so a duplicate
of an already-confirmed chunk has no effect on the output. -/
theorem stale_chunk_ignored (acc : Accumulator) (off : Nat) (txt : List Char)
    (hstale : off < acc.confirmed.length) :
    processChunk acc off txt = (acc, []) := by
  rw [processChunk, if_pos hstale]

/-- Witness for C7: redelivering the offset-0 chunk of an accumulator that
has confirmed "Hi." changes nothing and emits nothing. -/
theorem stale_chunk_ignored_witness :
    processChunk ⟨[], ['H', 'i', '.'], 3⟩ 0 ['H', 'i', '.'] =
      (⟨[], ['H', 'i', '.'], 3⟩, []) :=
  stale_chunk_ignored ⟨[], ['H', 'i', '.'], 3⟩ 0 ['H', 'i', '.'] (by decide)

end SB
